import Mathlib

/-!
Verification of the higher-order Markov chain in `include/ef.gy/markov.h`
(class `efgy::markov::chain<T, order, rng, counter>`).

The embedding fixes the symbol type `T` to `ℕ` (the source leaves it as an
opaque template parameter that only needs equality and a total order) and
models the unsigned `counter` type as `ℕ`.

Modelled from the spec: the header `ef.gy/maybe.h` (the `maybe<T>` wrapper
used for optional symbols) is not among the sources; only its test file is.
Following the spec's data model, an Optional Symbol is a two-variant sum
"a concrete Symbol or the terminator", embedded as `Option ℕ` with `none`
as the terminator, and the `std::map` key order on optional symbols is the
derived total order on that sum type with the terminator sorting first
(the spec only requires a fixed, deterministic ascending key order).
-/

set_option autoImplicit false

namespace efgy

namespace markov

/-- `memory` — the `std::array<maybe<T>, order>` sliding window of
recent history, as a list of optional symbols of length `order`. -/
abbrev memory := List (Option ℕ)

/-- `transition` — the `std::map<maybe<T>, counter>` distribution of
observed successors of one window, as an association list sorted in
ascending key order (mirroring `std::map` iteration order). -/
abbrev transition := List (Option ℕ × ℕ)

/-- The `std::map<memory, transition>` member `chain::transitions`.
Only lookup (`find`) and element access (`operator[]`) are ever used on
the outer map — never iteration — so it is embedded as a function from
windows to optional distributions. -/
abbrev table := List (Option ℕ) → Option transition

/-- The empty transitions map a freshly constructed chain starts with. -/
def emptyTable : table := fun _ => none

/-- The all-terminator window `memory()` / `memory m;` that both
`train` and `operator()` start from. -/
def initial (order : ℕ) : memory := List.replicate order none

/-- The window shift both `train` and `operator()` perform:
`std::transform(m.begin() + 1, m.end(), m.begin(), ...)` followed by
`*(m.end() - 1) = v` — drop the oldest entry, append the new symbol. -/
def shift (m : memory) (v : Option ℕ) : memory := m.drop 1 ++ [v]

/-- Modelled from the spec: the `std::map` key order on optional symbols
(supplied by the missing `maybe.h`): the derived order on the sum type,
terminator first, symbols by their own order. -/
def keyLt : Option ℕ → Option ℕ → Bool
  | none, none => false
  | none, some _ => true
  | some _, none => false
  | some a, some b => decide (a < b)

/-- `dist[k] += c` on a sorted association list: the `std::map`
element access `transitions[s][v] += c` at the inner level — find the
key (value-initialising its counter to `0` if absent, i.e. inserting in
key order) and add `c`. -/
def distIncr (k : Option ℕ) (c : ℕ) : transition → transition
  | [] => [(k, c)]
  | (k', c') :: rest =>
    if k = k' then (k', c' + c) :: rest
    else if keyLt k k' then (k, c) :: (k', c') :: rest
    else (k', c') :: distIncr k c rest

/-- `transitions[w][k] += c` at the outer level: fetch the distribution
for window `w` (an empty one if the window is absent, as `operator[]`
default-constructs it), bump key `k` by `c`, store it back. -/
def tableAdd (t : table) (w : memory) (k : Option ℕ) (c : ℕ) : table :=
  fun w' => if w' = w then some (distIncr k c ((t w).getD [])) else t w'

/-- The `std::accumulate` fold inside `chain::train`: for each input
symbol `v`, do `transitions[s][v] += c`, then shift `v` into the window;
returns the updated table together with the final window. -/
def trainLoop (c : ℕ) : table → memory → List ℕ → table × memory
  | t, m, [] => (t, m)
  | t, m, v :: rest => trainLoop c (tableAdd t m (some v) c) (shift m (some v)) rest

/-- `chain::train(input, c)` (markov.h lines 248–265): fold the input
through `trainLoop` starting from the all-terminator window, then
`transitions[m][maybe<T>()]++` — note the terminator entry is bumped by
`1` (post-increment), not by `c`, exactly as the source does. -/
def train (t : table) (order : ℕ) (seq : List ℕ) (c : ℕ) : table :=
  let p := trainLoop c t (initial order) seq
  tableAdd p.1 p.2 none 1

/-- A sequence of `train` calls, each a pair of input sequence and
weight, applied left to right. -/
def trainAll (order : ℕ) : table → List (List ℕ × ℕ) → table
  | t, [] => t
  | t, (s, c) :: rest => trainAll (order) (train t order s c) rest

/-- The `std::accumulate` over a distribution in `operator()`: the sum
of all counters of one window's distribution. -/
def distTotal (d : transition) : ℕ := (d.map Prod.snd).sum

/-- Outcome of scanning one distribution in `operator()`'s inner loop:
a symbol was sampled (`push_back` then `break`), the terminator was
sampled (`return rv`), or the loop ran off the end of the distribution
without selecting (possible only when the drawn value is at least the
distribution's total). -/
inductive scanOut where
  | emit (v : ℕ)
  | term
  | exhausted
deriving DecidableEq

/-- The inner `for` loop of `operator()` (markov.h lines 176–190) over
the entries of the found distribution, with `r` the drawn value:
`if (c > t.second) c -= t.second;` — i.e. when `r` strictly exceeds the
entry's count, subtract and move on — `else if (t.first)` emit the
symbol, `else` return. So an entry is selected exactly when the
remaining `r` is at most its count. -/
def scan (r : ℕ) : transition → scanOut
  | [] => .exhausted
  | (k, c) :: rest =>
    if c < r then scan (r - c) rest
    else
      match k with
      | some v => .emit v
      | none => .term

/-- The sampling rule as the spec's §4.3 step (d) words it, for
comparison with `scan`: an entry is the outcome exactly when `r < c`;
otherwise `r -= c` and the scan moves to the next entry. -/
def specScan (r : ℕ) : transition → scanOut
  | [] => .exhausted
  | (k, c) :: rest =>
    if r < c then
      match k with
      | some v => .emit v
      | none => .term
    else specScan (r - c) rest

/-! ### Machine integer semantics

The definitions above count in unbounded ℕ. The source's `counter`
type is `unsigned long` (64-bit under LP64), whose arithmetic wraps
modulo `2^64`, and the `std::accumulate` at markov.h line 168 is seeded
with the literal `0`, an `int` — so the total is accumulated through a
32-bit signed accumulator: each step widens the accumulator to
`unsigned long`, adds the counter modulo `2^64`, and narrows the sum
back to `int` (reduction modulo `2^32` into `[-2^31, 2^31)`), and the
final `int` is widened back to `counter`. The following definitions
model those conversions exactly; they are what claim C8 is really
about. -/

/-- `2^64`, the modulus of the `unsigned long` counter type. -/
def ulMod : ℕ := 2 ^ 64

/-- The `unsigned long → int` narrowing conversion: reduce modulo
`2^32` and centre the result into `[-2^31, 2^31)`. -/
def intOfUL (n : ℕ) : ℤ :=
  if n % 2 ^ 32 < 2 ^ 31 then ((n % 2 ^ 32 : ℕ) : ℤ)
  else ((n % 2 ^ 32 : ℕ) : ℤ) - 2 ^ 32

/-- The `int → unsigned long` widening conversion: value modulo
`2^64` (negative values wrap). -/
def ulOfInt (z : ℤ) : ℕ := (z % 2 ^ 64).toNat

/-- The total as `operator()` actually computes it (markov.h lines
167–172): `std::accumulate` seeded with the `int` literal `0`; each
step converts the `int` accumulator to `unsigned long`, adds this
entry's counter with wraparound, and assigns the sum back to the
`int` accumulator; the final `int` is assigned to a `counter`. -/
def distTotalC (d : transition) : ℕ :=
  ulOfInt (d.foldl (fun acc p => intOfUL ((ulOfInt acc + p.2) % ulMod)) 0)

/-- `transitions[s][v] += c` with genuine `unsigned long` counters:
the stored count wraps modulo `2^64`. -/
def distIncrM (k : Option ℕ) (c : ℕ) : transition → transition
  | [] => [(k, c % ulMod)]
  | (k', c') :: rest =>
    if k = k' then (k', (c' + c) % ulMod) :: rest
    else if keyLt k k' then (k, c % ulMod) :: (k', c') :: rest
    else (k', c') :: distIncrM k c rest

/-- `tableAdd` with wrapping counters. -/
def tableAddM (t : table) (w : memory) (k : Option ℕ) (c : ℕ) : table :=
  fun w' => if w' = w then some (distIncrM k c ((t w).getD [])) else t w'

/-- The training fold of `chain::train` with wrapping counters. -/
def trainLoopM (c : ℕ) : table → memory → List ℕ → table × memory
  | t, m, [] => (t, m)
  | t, m, v :: rest => trainLoopM c (tableAddM t m (some v) c) (shift m (some v)) rest

/-- `chain::train` with wrapping counters (the closing terminator
entry is still bumped by 1, as in the source). -/
def trainM (t : table) (order : ℕ) (seq : List ℕ) (c : ℕ) : table :=
  let p := trainLoopM c t (initial order) seq
  tableAddM p.1 p.2 none 1

/-- A sequence of wrapping-counter `train` calls, left to right. -/
def trainAllM (order : ℕ) : table → List (List ℕ × ℕ) → table
  | t, [] => t
  | t, (s, c) :: rest => trainAllM (order) (trainM t order s c) rest

/-- The total amount one `train` call adds across all windows: the
weight once per input symbol, plus the closing terminator bump. -/
def trainMass (seq : List ℕ) (c : ℕ) : ℕ := seq.length * c + 1

/-- The total amount a sequence of `train` calls adds across all
windows. -/
def trainAllMass : List (List ℕ × ℕ) → ℕ
  | [] => 0
  | (s, c) :: rest => trainMass s c + trainAllMass rest

/-- Every distribution in the table — reading an absent window as the
empty distribution — has room for `B` more mass before any counter or
total can reach `2^31`, the point where the `int` accumulation of the
total starts truncating. -/
def boundedTable (t : table) (B : ℕ) : Prop :=
  ∀ w, distTotal ((t w).getD []) + B < 2 ^ 31

/-- Result of a generation run: a finished output vector, the
`std::runtime_error("impossible memory state in markov chain.")` throw,
or fuel exhaustion (the source's outer loop has no iteration bound; the
embedding makes nontermination observable as `outOfFuel`). -/
inductive genResult where
  | output (out : List ℕ)
  | impossible
  | outOfFuel
deriving DecidableEq

/-- The state a `chain` instance carries into `operator()`: the
`transitions` map and the PRNG position. The injected random source is
modelled as a pure function from draw index to value; `rngIndex` is the
number of draws made so far, so `RNG()` returns `rng rngIndex` and
advances the index. -/
structure chainState where
  transitions : table
  rngIndex : ℕ
deriving Inhabited

/-- The outer loop of `chain::operator()` (markov.h lines 160–196):
look the current window up (`transitions.find(m)`); if absent, throw
(`impossible`); otherwise sum the counters, draw `r = RNG() % total`,
and scan the distribution: on a sampled symbol, append it and shift the
window; on the terminator, return the output; if the scan selected
nothing, re-enter the loop with the window unchanged. Structural fuel
stands in for the unbounded `for` loop. -/
def genLoop (rng : ℕ → ℕ) : ℕ → chainState → memory → List ℕ → genResult × chainState
  | 0, st, _, _ => (.outOfFuel, st)
  | fuel + 1, st, m, acc =>
    match st.transitions m with
    | none => (.impossible, st)
    | some d =>
      let r := rng st.rngIndex % distTotal d
      let st' : chainState := ⟨st.transitions, st.rngIndex + 1⟩
      match scan r d with
      | .term => (.output acc, st')
      | .emit v => genLoop rng fuel st' (shift m (some v)) (acc ++ [v])
      | .exhausted => genLoop rng fuel st' m acc

/-- `chain::operator()`: run the generation loop from the
all-terminator window with an empty output vector. -/
def generate (rng : ℕ → ℕ) (fuel order : ℕ) (st : chainState) : genResult × chainState :=
  genLoop rng fuel st (initial order) []

/-! ## Step lemmas for the generation loop -/

/-- With no fuel left the loop reports fuel exhaustion. -/
theorem genLoop_zero (rng : ℕ → ℕ) (st : chainState) (m : memory) (acc : List ℕ) :
    genLoop rng 0 st m acc = (genResult.outOfFuel, st) := rfl

/-- When the current window is absent from the transitions map, the
outer loop exits and the function throws. -/
theorem genLoop_succ_none (rng : ℕ → ℕ) (fuel : ℕ) (st : chainState) (m : memory)
    (acc : List ℕ) (h : st.transitions m = none) :
    genLoop rng (fuel + 1) st m acc = (genResult.impossible, st) := by
  rw [genLoop, h]

/-- When the current window is found, one iteration of the outer loop
draws a value, scans the distribution and acts on the outcome. -/
theorem genLoop_succ_some (rng : ℕ → ℕ) (fuel : ℕ) (st : chainState) (m : memory)
    (acc : List ℕ) (d : transition) (h : st.transitions m = some d) :
    genLoop rng (fuel + 1) st m acc =
      match scan (rng st.rngIndex % distTotal d) d with
      | .term => (genResult.output acc, ⟨st.transitions, st.rngIndex + 1⟩)
      | .emit v =>
          genLoop rng fuel ⟨st.transitions, st.rngIndex + 1⟩ (shift m (some v)) (acc ++ [v])
      | .exhausted => genLoop rng fuel ⟨st.transitions, st.rngIndex + 1⟩ m acc := by
  rw [genLoop, h]

/-! ## Claim theorems -/

/-- C1: the claim says `train(S, 1); train(S, 1)` yields the identical
transitions map as `train(S, 2)` for every sequence `S`. The code
contradicts this: `train` bumps the terminator entry with `++` (by 1)
instead of by the weight, so already for the empty sequence on an
order-1 chain, two weight-1 calls leave the terminator counter of the
initial window at 2 while a single weight-2 call leaves it at 1. -/
theorem claim1_accumulation_bug :
    (train (train emptyTable 1 [] 1) 1 [] 1) (initial 1) = some [(none, 2)] ∧
    (train emptyTable 1 [] 2) (initial 1) = some [(none, 1)] := by
  constructor <;> decide

/-- C2: the claim says that after the sequence is exhausted, `train`
increments the terminator entry of the final window's distribution by
exactly the weight `w`. The code uses `transitions[m][maybe<T>()]++`,
which adds 1: training `[1]` with weight 3 on an order-1 chain leaves
the terminator counter of the final window `[just 1]` at 1 (not 3),
while the symbol entry of the initial window correctly receives 3. -/
theorem claim2_terminator_increment_bug :
    (train emptyTable 1 [1] 3) [some 1] = some [(none, 1)] ∧
    (train emptyTable 1 [1] 3) (initial 1) = some [(some 1, 3)] := by
  constructor <;> decide

/-- C3 counterexample: the claim says an entry with count `c` is the
sampled outcome exactly when the remaining `r` satisfies `r < c`. On
the distribution with entries `(just 0, 1), (just 1, 1)` and drawn
value `r = 1` (legal, since the total is 2), the code's scan selects
the first entry even though `1 < 1` fails — the rule worded by the
spec would have moved on and selected the second entry instead. -/
theorem claim3_scan_rule_counterexample :
    scan 1 [(some 0, 1), (some 1, 1)] = scanOut.emit 0 ∧
    specScan 1 [(some 0, 1), (some 1, 1)] = scanOut.emit 1 ∧
    scanOut.emit 0 ≠ scanOut.emit 1 := by
  refine ⟨by decide, by decide, by decide⟩

/-- C3 (amended): in each generation step the distribution's entries
are scanned in order, and an entry with count `c` is the sampled
outcome exactly when the remaining `r` satisfies `r ≤ c`; otherwise
(`r > c`) `r` is decreased by `c` and the scan moves to the next
entry. -/
theorem claim3_scan_rule_amended (r c : ℕ) (k : Option ℕ) (rest : transition) :
    (r ≤ c → scan r ((k, c) :: rest) =
      (match k with | some v => scanOut.emit v | none => scanOut.term)) ∧
    (c < r → scan r ((k, c) :: rest) = scan (r - c) rest) := by
  constructor
  · intro h
    cases k <;> simp [scan, Nat.not_lt.mpr h]
  · intro h
    simp [scan, h]

theorem claim3_scan_rule_amended_witness :
    ((0 : ℕ) ≤ 1 ∧ scan 0 [(some 5, 1)] = scanOut.emit 5) ∧
    ((2 : ℕ) < 3 ∧ scan 3 [(some 5, 2), (none, 4)] = scan 1 [(none, 4)]) :=
  ⟨⟨by decide, (claim3_scan_rule_amended 0 1 (some 5) []).1 (by decide)⟩,
   ⟨by decide, (claim3_scan_rule_amended 3 2 (some 5) [(none, 4)]).2 (by decide)⟩⟩

/-- C9: training the empty sequence records a terminator count of 1 at
the initial all-terminator window, and generation on a chain trained
only on the empty sequence finds that window, draws `r = RNG() % 1 = 0`,
samples the terminator, and returns the empty output — it does not
throw, for any random source and any order. -/
theorem claim9_empty_training (order fuel i : ℕ) (rng : ℕ → ℕ) :
    train emptyTable order [] 1 (initial order) = some [(none, 1)] ∧
    generate rng (fuel + 1) order ⟨train emptyTable order [] 1, i⟩ =
      (genResult.output [], ⟨train emptyTable order [] 1, i + 1⟩) := by
  have ht : train emptyTable order [] 1 (initial order) = some [(none, 1)] := by
    simp [train, trainLoop, tableAdd, emptyTable, distIncr]
  refine ⟨ht, ?_⟩
  rw [generate, genLoop_succ_some rng fuel _ _ _ _ ht]
  simp [distTotal, scan, Nat.mod_one]

/-- C4: the order-2 scenario. Training `[1, 2, 3]` with weight 1 on a
fresh chain produces exactly the four expected entries — window
`[∅,∅] ↦ {1: 1}`, `[∅,1] ↦ {2: 1}`, `[1,2] ↦ {3: 1}`,
`[2,3] ↦ {terminator: 1}` — every other window is absent, and a
generation run with a zero-returning random source outputs `[1,2,3]`. -/
theorem claim4_order2_scenario :
    (train emptyTable 2 [1, 2, 3] 1) [none, none] = some [(some 1, 1)] ∧
    (train emptyTable 2 [1, 2, 3] 1) [none, some 1] = some [(some 2, 1)] ∧
    (train emptyTable 2 [1, 2, 3] 1) [some 1, some 2] = some [(some 3, 1)] ∧
    (train emptyTable 2 [1, 2, 3] 1) [some 2, some 3] = some [(none, 1)] ∧
    (∀ w : memory, w ≠ [none, none] → w ≠ [none, some 1] →
      w ≠ [some 1, some 2] → w ≠ [some 2, some 3] →
      (train emptyTable 2 [1, 2, 3] 1) w = none) ∧
    (generate (fun _ => 0) 4 2 ⟨train emptyTable 2 [1, 2, 3] 1, 0⟩).1 =
      genResult.output [1, 2, 3] := by
  refine ⟨by decide, by decide, by decide, by decide, ?_, by decide⟩
  intro w h1 h2 h3 h4
  simp [train, trainLoop, tableAdd, emptyTable, shift, initial, List.replicate,
    h1, h2, h3, h4]

theorem claim4_order2_scenario_witness :
    (train emptyTable 2 [1, 2, 3] 1) [some 9, some 9] = none :=
  claim4_order2_scenario.2.2.2.2.1 [some 9, some 9]
    (by decide) (by decide) (by decide) (by decide)

/-- Generation can only throw by reaching a window that is absent from
the transitions map: whenever the loop ends in the impossible state,
some window is unmapped. Proved by induction on the fuel; the
transitions map is never modified along the loop, so the recursive
calls talk about the same map. -/
theorem genLoop_impossible_absent (rng : ℕ → ℕ) :
    ∀ (fuel : ℕ) (st : chainState) (m : memory) (acc : List ℕ) (st' : chainState),
      genLoop rng fuel st m acc = (genResult.impossible, st') →
      ∃ w, st.transitions w = none
  | 0, st, m, acc, st' => by
    intro h
    simp [genLoop_zero] at h
  | fuel + 1, st, m, acc, st' => by
    intro h
    cases hm : st.transitions m with
    | none => exact ⟨m, hm⟩
    | some d =>
      rw [genLoop_succ_some rng fuel st m acc d hm] at h
      cases hs : scan (rng st.rngIndex % distTotal d) d with
      | term => rw [hs] at h; simp at h
      | emit v =>
        rw [hs] at h
        dsimp only at h
        exact genLoop_impossible_absent rng fuel ⟨st.transitions, st.rngIndex + 1⟩ _ _ _ h
      | exhausted =>
        rw [hs] at h
        dsimp only at h
        exact genLoop_impossible_absent rng fuel ⟨st.transitions, st.rngIndex + 1⟩ _ _ _ h

/-- C5: generation on a chain whose transitions map is empty throws on
the very first lookup (the initial all-terminator window), leaving the
state untouched; one loop iteration throws whenever the current window
is absent; and conversely, a run that ends in the impossible state
always has an unmapped window — failure happens exactly at absent
windows. -/
theorem claim5_impossible_state :
    (∀ (rng : ℕ → ℕ) (fuel order i : ℕ),
      generate rng (fuel + 1) order ⟨emptyTable, i⟩ =
        (genResult.impossible, ⟨emptyTable, i⟩)) ∧
    (∀ (rng : ℕ → ℕ) (fuel : ℕ) (st : chainState) (m : memory) (acc : List ℕ),
      st.transitions m = none →
      genLoop rng (fuel + 1) st m acc = (genResult.impossible, st)) ∧
    (∀ (rng : ℕ → ℕ) (fuel : ℕ) (st : chainState) (m : memory) (acc : List ℕ)
      (st' : chainState),
      genLoop rng fuel st m acc = (genResult.impossible, st') →
      ∃ w, st.transitions w = none) := by
  refine ⟨?_, ?_, ?_⟩
  · intro rng fuel order i
    exact genLoop_succ_none rng fuel _ _ _ rfl
  · intro rng fuel st m acc h
    exact genLoop_succ_none rng fuel st m acc h
  · intro rng fuel st m acc st' h
    exact genLoop_impossible_absent rng fuel st m acc st' h

theorem claim5_impossible_state_witness :
    ∃ w, (⟨emptyTable, 0⟩ : chainState).transitions w = none :=
  claim5_impossible_state.2.2 (fun _ => 0) 1 ⟨emptyTable, 0⟩ [] []
    ⟨emptyTable, 0⟩ rfl

/-- C6 counterexample: the claim quantifies over every three symbols
`x, y, z`. Taking `x = y = z = 0`, an order-1 chain trained once on
`[0, 0, 0]` maps window `[just 0]` to `{terminator: 1, just 0: 2}`;
with a zero-returning random source the scan at that window draws
`r = 0` and selects the terminator (`0 ≤ 1`), so generation returns
`[0]`, not `[0, 0, 0]`. -/
theorem claim6_repro_counterexample :
    (generate (fun _ => 0) 10 1 ⟨train emptyTable 1 [0, 0, 0] 1, 0⟩).1 =
      genResult.output [0] ∧
    genResult.output [0] ≠ genResult.output [0, 0, 0] := by
  refine ⟨by decide, by decide⟩

/-- C6 (amended): for every three pairwise-distinct symbols `x, y, z`,
an order-1 chain trained exactly once on `[x, y, z]` with weight 1,
generated with a random source that always returns 0, outputs exactly
`[x, y, z]`. -/
theorem claim6_repro_distinct (x y z : ℕ) (hxy : x ≠ y) (hxz : x ≠ z) (hyz : y ≠ z) :
    (generate (fun _ => 0) 4 1 ⟨train emptyTable 1 [x, y, z] 1, 0⟩).1 =
      genResult.output [x, y, z] := by
  simp [generate, genLoop, train, trainLoop, tableAdd, emptyTable, shift, initial,
    distIncr, distTotal, scan, Nat.mod_one, hxy, hxz, hyz,
    Ne.symm hxy, Ne.symm hxz, Ne.symm hyz]

theorem claim6_repro_distinct_witness :
    (generate (fun _ => 0) 4 1 ⟨train emptyTable 1 [1, 2, 3] 1, 0⟩).1 =
      genResult.output [1, 2, 3] :=
  claim6_repro_distinct 1 2 3 (by decide) (by decide) (by decide)

/-- The generation loop never writes to the transitions map: whatever
state it returns carries the map it started from. -/
theorem genLoop_transitions_eq (rng : ℕ → ℕ) :
    ∀ (fuel : ℕ) (st : chainState) (m : memory) (acc : List ℕ),
      ((genLoop rng fuel st m acc).2).transitions = st.transitions
  | 0, st, m, acc => rfl
  | fuel + 1, st, m, acc => by
    cases hm : st.transitions m with
    | none => rw [genLoop_succ_none rng fuel st m acc hm]
    | some d =>
      rw [genLoop_succ_some rng fuel st m acc d hm]
      cases scan (rng st.rngIndex % distTotal d) d with
      | term => rfl
      | emit v => exact genLoop_transitions_eq rng fuel _ _ _
      | exhausted => exact genLoop_transitions_eq rng fuel _ _ _

/-- C7: a generation call leaves the transitions map unchanged — every
window maps to the same optional distribution before and after, so
nothing is added, removed or altered; only the random source position
moves. -/
theorem claim7_generation_reads_only (rng : ℕ → ℕ) (fuel order : ℕ)
    (st : chainState) (w : memory) :
    ((generate rng fuel order st).2).transitions w = st.transitions w := by
  rw [generate, genLoop_transitions_eq]

/-- Bumping a key adds exactly the increment to a distribution's total,
wherever the key lands in the sorted association list. -/
theorem distTotal_distIncr (k : Option ℕ) (c : ℕ) :
    ∀ d : transition, distTotal (distIncr k c d) = distTotal d + c
  | [] => by simp [distIncr, distTotal]
  | (k', c') :: rest => by
    by_cases h : k = k'
    · simp [distIncr, h, distTotal]
      omega
    · by_cases hlt : keyLt k k'
      · simp [distIncr, h, hlt, distTotal]
        omega
      · have ih := distTotal_distIncr k c rest
        simp [distIncr, h, hlt, distTotal] at ih ⊢
        omega

/-- Invariant of C8: every distribution stored in the transitions map
has a strictly positive total. -/
def posTotals (t : table) : Prop := ∀ w d, t w = some d → 0 < distTotal d

/-- One positive-increment table update preserves the invariant: the
touched window's total grows by the increment, others are untouched. -/
theorem posTotals_tableAdd {t : table} (ht : posTotals t) (w : memory)
    (k : Option ℕ) {c : ℕ} (hc : 0 < c) : posTotals (tableAdd t w k c) := by
  intro w' d hd
  simp only [tableAdd] at hd
  by_cases hw : w' = w
  · rw [if_pos hw] at hd
    obtain rfl : distIncr k c ((t w).getD []) = d := Option.some_injective _ hd
    rw [distTotal_distIncr]
    omega
  · rw [if_neg hw] at hd
    exact ht w' d hd

/-- The training fold preserves the invariant when the weight is
positive. -/
theorem posTotals_trainLoop {c : ℕ} (hc : 0 < c) :
    ∀ (seq : List ℕ) (t : table) (m : memory), posTotals t →
      posTotals (trainLoop c t m seq).1
  | [], _t, _m, ht => ht
  | v :: rest, _t, m, ht =>
    posTotals_trainLoop hc rest _ _ (posTotals_tableAdd ht m (some v) hc)

/-- A whole `train` call with positive weight preserves the invariant
(the closing terminator bump adds 1, which is positive as well). -/
theorem posTotals_train {t : table} (ht : posTotals t) (order : ℕ)
    (seq : List ℕ) {c : ℕ} (hc : 0 < c) : posTotals (train t order seq c) :=
  posTotals_tableAdd (posTotals_trainLoop hc seq t (initial order) ht) _ none
    Nat.one_pos

/-- Any sequence of positive-weight `train` calls preserves the
invariant. -/
theorem posTotals_trainAll (order : ℕ) :
    ∀ (L : List (List ℕ × ℕ)) (t : table), posTotals t →
      (∀ p ∈ L, 0 < p.2) → posTotals (trainAll order t L)
  | [], t, ht, _ => ht
  | (s, c) :: rest, t, ht, hL =>
    posTotals_trainAll order rest _
      (posTotals_train ht order s (hL (s, c) (by simp)))
      (fun p hp => hL p (by simp [hp]))

/-- Each entry's count is at most its distribution's total. -/
theorem count_le_distTotal {d : transition} {p : Option ℕ × ℕ} (hp : p ∈ d) :
    p.2 ≤ distTotal d :=
  List.single_le_sum (fun x _ => Nat.zero_le x) _ (List.mem_map_of_mem Prod.snd hp)

/-- With a weight below `2^64` and no counter sum reaching `2^64`, the
wrapping increment agrees with the mathematical one. -/
theorem distIncrM_eq_distIncr (k : Option ℕ) {c : ℕ} (hc : c < ulMod) :
    ∀ d : transition, (∀ p ∈ d, p.2 + c < ulMod) → distIncrM k c d = distIncr k c d
  | [] => fun _ => by simp [distIncrM, distIncr, Nat.mod_eq_of_lt hc]
  | (k', c') :: rest => fun h => by
    by_cases hk : k = k'
    · have hcc : c' + c < ulMod := h (k', c') (List.mem_cons_self _ _)
      simp [distIncrM, distIncr, hk, Nat.mod_eq_of_lt hcc]
    · by_cases hlt : keyLt k k'
      · simp [distIncrM, distIncr, hk, hlt, Nat.mod_eq_of_lt hc]
      · have ih := distIncrM_eq_distIncr k hc rest
          (fun p hp => h p (List.mem_cons_of_mem _ hp))
        simp [distIncrM, distIncr, hk, hlt, ih]

/-- Adding `c` to a table with `c + B` of room leaves `B` of room. -/
theorem boundedTable_tableAdd {t : table} {c B : ℕ}
    (h : boundedTable t (c + B)) (w : memory) (k : Option ℕ) :
    boundedTable (tableAdd t w k c) B := by
  intro w'
  by_cases hw : w' = w
  · have hww := h w
    simp only [tableAdd, if_pos hw, Option.getD_some]
    rw [distTotal_distIncr]
    omega
  · have hww := h w'
    simp only [tableAdd, if_neg hw]
    omega

/-- While the table still has room, the wrapping table update agrees
with the mathematical one, pointwise: no counter can come near the
`2^64` wrap because every count is bounded by its window's total. -/
theorem tableAddM_eq_tableAdd {tM tN : table} (heq : ∀ w, tM w = tN w)
    {c B : ℕ} (h : boundedTable tN (c + B)) (w : memory) (k : Option ℕ) :
    ∀ w', tableAddM tM w k c w' = tableAdd tN w k c w' := by
  intro w'
  have hroom := h w
  have h64 : (2 : ℕ) ^ 31 < 2 ^ 64 := by norm_num
  have hc : c < ulMod := by
    simp only [ulMod]
    omega
  have hd : distIncrM k c ((tM w).getD []) = distIncr k c ((tN w).getD []) := by
    rw [heq w]
    refine distIncrM_eq_distIncr k hc _ (fun p hp => ?_)
    have h1 : p.2 ≤ distTotal ((tN w).getD []) := count_le_distTotal hp
    simp only [ulMod]
    omega
  simp only [tableAddM, tableAdd, hd, heq w']

/-- Along a whole training fold, the wrapping and mathematical tables
stay pointwise equal, reach the same final window, and the budget
shrinks by the weight once per symbol. -/
theorem trainLoopM_eq_trainLoop {c : ℕ} :
    ∀ (seq : List ℕ) (tM tN : table) (m : memory) (B : ℕ),
      (∀ w, tM w = tN w) → boundedTable tN (seq.length * c + B) →
      (∀ w, (trainLoopM c tM m seq).1 w = (trainLoop c tN m seq).1 w) ∧
      (trainLoopM c tM m seq).2 = (trainLoop c tN m seq).2 ∧
      boundedTable (trainLoop c tN m seq).1 B
  | [], tM, tN, m, B, heq, hb => by
    refine ⟨heq, rfl, fun w => ?_⟩
    have := hb w
    simpa using this
  | v :: rest, tM, tN, m, B, heq, hb => by
    have harith : (v :: rest).length * c + B = c + (rest.length * c + B) := by
      simp only [List.length_cons]
      ring
    rw [harith] at hb
    have heq' := tableAddM_eq_tableAdd heq hb m (some v)
    have hb' := boundedTable_tableAdd hb m (some v)
    exact trainLoopM_eq_trainLoop rest _ _ _ _ heq' hb'

/-- One full `train` call keeps the wrapping and mathematical tables
pointwise equal, consuming the call's mass from the budget. -/
theorem trainM_eq_train {tM tN : table} (heq : ∀ w, tM w = tN w) (order : ℕ)
    (seq : List ℕ) {c B : ℕ} (hb : boundedTable tN (trainMass seq c + B)) :
    (∀ w, trainM tM order seq c w = train tN order seq c w) ∧
    boundedTable (train tN order seq c) B := by
  have harith : trainMass seq c + B = seq.length * c + (1 + B) := by
    simp only [trainMass]
    omega
  rw [harith] at hb
  obtain ⟨h1, h2, h3⟩ := trainLoopM_eq_trainLoop seq tM tN (initial order) (1 + B) heq hb
  constructor
  · intro w
    show tableAddM (trainLoopM c tM (initial order) seq).1
        (trainLoopM c tM (initial order) seq).2 none 1 w =
      tableAdd (trainLoop c tN (initial order) seq).1
        (trainLoop c tN (initial order) seq).2 none 1 w
    rw [h2]
    exact tableAddM_eq_tableAdd h1 h3 _ none w
  · show boundedTable (tableAdd (trainLoop c tN (initial order) seq).1
      (trainLoop c tN (initial order) seq).2 none 1) B
    exact boundedTable_tableAdd h3 _ none

/-- A run of `train` calls whose total mass fits in the budget keeps
the wrapping and mathematical tables pointwise equal throughout. -/
theorem trainAllM_eq_trainAll (order : ℕ) :
    ∀ (L : List (List ℕ × ℕ)) (tM tN : table) (B : ℕ),
      (∀ w, tM w = tN w) → boundedTable tN (trainAllMass L + B) →
      (∀ w, trainAllM order tM L w = trainAll order tN L w) ∧
      boundedTable (trainAll order tN L) B
  | [], tM, tN, B, heq, hb => by
    refine ⟨heq, fun w => ?_⟩
    have := hb w
    simpa [trainAllMass, trainAll] using this
  | (s, c) :: rest, tM, tN, B, heq, hb => by
    have harith : trainAllMass ((s, c) :: rest) + B
        = trainMass s c + (trainAllMass rest + B) := by
      simp only [trainAllMass]
      omega
    rw [harith] at hb
    obtain ⟨h1, h2⟩ := trainM_eq_train heq order s hb
    exact trainAllM_eq_trainAll order rest _ _ _ h1 h2

/-- Widening a natural below `2^64` through int is lossless. -/
theorem ulOfInt_natCast {n : ℕ} (h : n < 2 ^ 64) : ulOfInt (n : ℤ) = n := by
  unfold ulOfInt
  rw [Int.emod_eq_of_lt (Int.natCast_nonneg n) (by exact_mod_cast h)]
  simp

/-- Narrowing a natural below `2^31` to int keeps its value. -/
theorem intOfUL_small {n : ℕ} (h : n < 2 ^ 31) : intOfUL n = (n : ℤ) := by
  have h32 : n % 2 ^ 32 = n := Nat.mod_eq_of_lt (lt_trans h (by norm_num))
  unfold intOfUL
  rw [h32, if_pos h]

/-- As long as the running total stays below `2^31`, the int-threaded
accumulate of markov.h line 168 computes the exact partial sums. -/
theorem distTotalC_foldl :
    ∀ (d : transition) (a : ℕ), a + distTotal d < 2 ^ 31 →
      d.foldl (fun acc p => intOfUL ((ulOfInt acc + p.2) % ulMod)) (a : ℤ) =
        ((a + distTotal d : ℕ) : ℤ)
  | [], a => by
    intro h
    simp [distTotal]
  | (k, c) :: rest, a => by
    intro h
    have htot : distTotal ((k, c) :: rest) = c + distTotal rest := by
      simp [distTotal]
    rw [htot] at h
    have h64 : (2 : ℕ) ^ 31 < 2 ^ 64 := by norm_num
    have hstep : intOfUL ((ulOfInt (a : ℤ) + c) % ulMod) = ((a + c : ℕ) : ℤ) := by
      rw [ulOfInt_natCast (by omega)]
      have hac : (a + c) % ulMod = a + c := by
        simp only [ulMod]
        exact Nat.mod_eq_of_lt (by omega)
      rw [hac]
      exact intOfUL_small (by omega)
    simp only [List.foldl_cons]
    rw [hstep, distTotalC_foldl rest (a + c) (by omega)]
    congr 1
    rw [htot]
    omega

/-- Below the truncation threshold `2^31`, the generator's
int-accumulated total is the mathematical total. -/
theorem distTotalC_eq {d : transition} (h : distTotal d < 2 ^ 31) :
    distTotalC d = distTotal d := by
  unfold distTotalC
  have hf := distTotalC_foldl d 0 (by omega)
  rw [Nat.cast_zero] at hf
  rw [hf]
  have hz : (0 : ℕ) + distTotal d = distTotal d := Nat.zero_add _
  rw [hz]
  have h64 : (2 : ℕ) ^ 31 < 2 ^ 64 := by norm_num
  exact ulOfInt_natCast (by omega)

/-- C8 counterexample: the claim says a table populated only by
strictly-positive-weight `train` calls never makes the generator take
a modulus of zero. A single call `train([1], 2^32)` — the weight
strictly positive and a genuine `unsigned long` value — stores the
counter `2^32` at the initial window, yet the `int`-seeded
`std::accumulate` of markov.h line 168 narrows that total to `0`, so
line 174 computes `RNG() % 0`. -/
theorem claim8_mod_zero_counterexample :
    ((0 : ℕ) < 2 ^ 32 ∧ 2 ^ 32 < ulMod) ∧
    trainM emptyTable 1 [1] (2 ^ 32) (initial 1) = some [(some 1, 2 ^ 32)] ∧
    distTotalC [(some 1, 2 ^ 32)] = 0 := by
  refine ⟨⟨by norm_num, by norm_num [ulMod]⟩, by decide, by decide⟩

/-- C8 (amended): on a chain populated only by `train` calls with
strictly positive weights — counters and total computed with the
source's machine-integer semantics — every stored distribution has a
strictly positive mathematical total; and as long as the total mass
trained into the table stays below `2^31` (so the `int` accumulator of
markov.h line 168 never truncates and no `unsigned long` counter
wraps), the generator's computed total equals that positive total and
the `RNG() % total` reduction never takes a modulus of zero. -/
theorem claim8_positive_totals_guarded (order : ℕ) (L : List (List ℕ × ℕ))
    (hpos : ∀ p ∈ L, 0 < p.2) (hmass : trainAllMass L < 2 ^ 31)
    (w : memory) (d : transition)
    (hw : trainAllM order emptyTable L w = some d) :
    0 < distTotal d ∧ distTotalC d = distTotal d ∧
    ∀ x : ℕ, x % distTotalC d < distTotalC d := by
  have hb0 : boundedTable emptyTable (trainAllMass L + 0) := by
    intro w'
    simp only [emptyTable, Option.getD_none]
    simp [distTotal]
    omega
  obtain ⟨heq, hbfin⟩ :=
    trainAllM_eq_trainAll order L emptyTable emptyTable 0 (fun _ => rfl) hb0
  have hwN : trainAll order emptyTable L w = some d := by
    rw [← heq w]
    exact hw
  have hpos' : 0 < distTotal d :=
    posTotals_trainAll order L emptyTable
      (fun w' d' h => by simp [emptyTable] at h) hpos w d hwN
  have hlt : distTotal d < 2 ^ 31 := by
    have hb := hbfin w
    rw [hwN] at hb
    simpa using hb
  have hC := distTotalC_eq hlt
  refine ⟨hpos', hC, fun x => ?_⟩
  rw [hC]
  exact Nat.mod_lt x hpos'

theorem claim8_positive_totals_guarded_witness :
    0 < distTotal [(some 1, 1)] ∧
    distTotalC [(some 1, 1)] = distTotal [(some 1, 1)] ∧
    ∀ x : ℕ, x % distTotalC [(some 1, 1)] < distTotalC [(some 1, 1)] :=
  claim8_positive_totals_guarded 1 [([1], 1)] (by decide) (by norm_num [trainAllMass, trainMass])
    [none] [(some 1, 1)] (by decide)

/-- When the drawn value is below the distribution's total, the scan
always selects an entry before running off the end: at each entry it
subtracts only when the remainder strictly exceeds the count, so the
remainder stays ahead of the remaining total. -/
theorem scan_selects :
    ∀ (d : transition) (r : ℕ), r < distTotal d →
      (∃ v, scan r d = scanOut.emit v) ∨ scan r d = scanOut.term
  | [], r => by
    intro h
    simp [distTotal] at h
  | (k, c) :: rest, r => by
    intro h
    by_cases hc : c < r
    · have hr : r - c < distTotal rest := by
        simp only [distTotal, List.map_cons, List.sum_cons] at h
        simp only [distTotal]
        omega
      have step : scan r ((k, c) :: rest) = scan (r - c) rest := by
        simp [scan, hc]
      rw [step]
      exact scan_selects rest (r - c) hr
    · cases k with
      | some v => exact Or.inl ⟨v, by simp [scan, hc]⟩
      | none => exact Or.inr (by simp [scan, hc])

/-- C10: with a positive total `t` and a drawn value `r < t`, the scan
of a distribution always selects some entry — a symbol or the
terminator — before the entries are exhausted (the remainder is only
decreased by a count it strictly exceeds, so the truncated subtraction
never loses anything); consequently an outer-loop iteration on a found
window either appends exactly one sampled symbol and continues, or
returns the output. -/
theorem claim10_scan_always_selects :
    (∀ (d : transition) (r : ℕ), r < distTotal d →
      (∃ v, scan r d = scanOut.emit v) ∨ scan r d = scanOut.term) ∧
    (∀ (rng : ℕ → ℕ) (fuel : ℕ) (st : chainState) (m : memory) (acc : List ℕ)
      (d : transition) (v : ℕ), st.transitions m = some d →
      (scan (rng st.rngIndex % distTotal d) d = scanOut.emit v →
        genLoop rng (fuel + 1) st m acc =
          genLoop rng fuel ⟨st.transitions, st.rngIndex + 1⟩ (shift m (some v))
            (acc ++ [v])) ∧
      (scan (rng st.rngIndex % distTotal d) d = scanOut.term →
        genLoop rng (fuel + 1) st m acc =
          (genResult.output acc, ⟨st.transitions, st.rngIndex + 1⟩))) := by
  refine ⟨scan_selects, ?_⟩
  intro rng fuel st m acc d v hm
  constructor
  · intro hs
    rw [genLoop_succ_some rng fuel st m acc d hm, hs]
  · intro hs
    rw [genLoop_succ_some rng fuel st m acc d hm, hs]

theorem claim10_scan_always_selects_witness :
    ((0 : ℕ) < distTotal [(some 4, 2), (none, 1)] ∧
      ((∃ v, scan 0 [(some 4, 2), (none, 1)] = scanOut.emit v) ∨
        scan 0 [(some 4, 2), (none, 1)] = scanOut.term)) ∧
    ((2 : ℕ) < distTotal [(some 4, 2), (none, 1)] ∧
      ((∃ v, scan 2 [(some 4, 2), (none, 1)] = scanOut.emit v) ∨
        scan 2 [(some 4, 2), (none, 1)] = scanOut.term)) :=
  ⟨⟨by decide, claim10_scan_always_selects.1 [(some 4, 2), (none, 1)] 0 (by decide)⟩,
   ⟨by decide, claim10_scan_always_selects.1 [(some 4, 2), (none, 1)] 2 (by decide)⟩⟩

end markov

end efgy
